import Mathlib

/-!
Verification of the answer-key generation and option-shuffling core of the
Image-to-MCQ repository: a shallow embedding of
`src/mcq-generator/lib/answer-randomization.ts` and
`src/mcq-generator/lib/shuffle-quiz.ts`, together with proofs about it.

The JavaScript random source (`Math.random()`) is modelled by a stream
`σ : Nat → Nat` of draws consumed at increasing positions;
`Math.floor(Math.random() * (i + 1))` becomes `σ pos % (i + 1)`.
-/

set_option maxHeartbeats 8000000
set_option maxRecDepth 100000

namespace ImageToMCQ

/-- The destructuring swap `[arr[i], arr[j]] = [arr[j], arr[i]]`:
both reads happen on the original array, then both writes. -/
def swapL (l : List α) (i j : Nat) (d : α) : List α :=
  (l.set i (l.getD j d)).set j (l.getD i d)

/-- Fisher–Yates loop `for (let i = n - 1; i > 0; i--) { j = rand(i+1); swap }`,
threading the draw position. -/
def fyLoop (σ : Nat → Nat) (d : α) : List α → Nat → Nat → List α × Nat
  | l, 0, pos => (l, pos)
  | l, i+1, pos => fyLoop σ d (swapL l (i+1) (σ pos % (i+2)) d) i (pos+1)

/-- A full Fisher–Yates shuffle of `l` (shuffle-quiz.ts lines 10–17 works on a
copy; answer-randomization.ts lines 16–19 and 51–54 shuffle in place — in this
pure embedding both are the same computation). -/
def fyShuffle (σ : Nat → Nat) (d : α) (l : List α) (pos : Nat) : List α × Nat :=
  fyLoop σ d l (l.length - 1) pos

/-- The generator's letter alphabet `['a', 'b', 'c', 'd']`. -/
def genLetters : List Char := ['a', 'b', 'c', 'd']

/-- Step 1 of `generateRetrievalAnswerSequence`: 8 of each letter (32 total). -/
def buildLetters : List Char :=
  List.replicate 8 'a' ++ List.replicate 8 'b' ++ List.replicate 8 'c' ++ List.replicate 8 'd'

/-- Lines 35–47: search forward from `j` for a swap partner for the duplicate at
`i`, skipping any `j` for which one of the three checks fires
(`wouldCreateConsecutiveBefore` / `After` / `AtI`).  The first fuel argument
only reifies the loop bound `j < letters.length`: callers pass `l.length`,
which the loop (whose `j` increases by 1 each step from `i + 2 ≥ 2`) never
exhausts before the `j < l.length` test fails. -/
def findSwapJ (l : List Char) (i : Nat) : Nat → Nat → Option Nat
  | 0, _ => none
  | fuel+1, j =>
    if j < l.length then
      if (0 < j ∧ l.getD (j-1) 'a' = l.getD (i+1) 'a')
          ∨ (j < l.length - 1 ∧ l.getD (j+1) 'a' = l.getD (i+1) 'a')
          ∨ l.getD i 'a' = l.getD j 'a'
      then findSwapJ l i fuel (j+1)
      else some j
    else none

/-- One pass of the repair `for` loop (lines 29–58): scan from index `i`; on a
duplicate, either swap with a found partner and continue, or reshuffle fully and
break.  The `Bool` is `hasConsecutive`.  `fuel` only reifies the loop bound
`i < letters.length - 1` (the caller passes `l.length`, which the loop never
exceeds since `i` increases by 1 each step). -/
def scanAux (σ : Nat → Nat) : Nat → List Char → Nat → Nat → Bool → List Char × Nat × Bool
  | 0, l, _, pos, hasCons => (l, pos, hasCons)
  | fuel+1, l, i, pos, hasCons =>
    if i < l.length - 1 then
      if l.getD i 'a' = l.getD (i+1) 'a' then
        match findSwapJ l i l.length (i+2) with
        | some j => scanAux σ fuel (swapL l (i+1) j 'a') (i+1) pos true
        | none => ((fyShuffle σ 'a' l pos).1, (fyShuffle σ 'a' l pos).2, true)
      else scanAux σ fuel l (i+1) pos hasCons
    else (l, pos, hasCons)

/-- One iteration body of the `while (attempts < maxAttempts)` loop. -/
def scanPass (σ : Nat → Nat) (l : List Char) (pos : Nat) : List Char × Nat × Bool :=
  scanAux σ l.length l 0 pos false

/-- The `while (attempts < maxAttempts)` loop (lines 22–65); the fuel argument
is `maxAttempts - attempts`, starting at 100. -/
def repairLoop (σ : Nat → Nat) : Nat → List Char → Nat → List Char × Nat
  | 0, l, pos => (l, pos)
  | n+1, l, pos =>
    let r := scanPass σ l pos
    if r.2.2 then repairLoop σ n r.1 r.2.1 else (r.1, r.2.1)

/-- The validation errors pushed by `validateAnswerSequence` (lines 84–122),
one constructor per `errors.push` site. -/
inductive ValidationError where
  | wrongLength (n : Nat)
  | consecutiveDup (i : Nat)
  | invalidLetter (c : Char)
  | badDistribution (c : Char) (n : Nat)
deriving DecidableEq

/-- The validator `validateAnswerSequence` (lines 84–122), returning the `errors` array in
push order; the source's `isValid` is `errors = []`. -/
def validateAnswerSequence (s : List Char) : List ValidationError :=
  (if s.length = 30 then [] else [.wrongLength s.length])
  ++ (List.range (s.length - 1)).filterMap
      (fun i => if s.getD i 'a' = s.getD (i+1) 'a' then some (.consecutiveDup i) else none)
  ++ s.filterMap (fun c => if c ∈ genLetters then none else some (.invalidLetter c))
  ++ genLetters.filterMap
      (fun c => if s.count c < 7 ∨ 8 < s.count c then some (.badDistribution c (s.count c)) else none)

/-- Steps 1–4 of `generateRetrievalAnswerSequence`: build, shuffle, repair,
trim to 30.  Returns the trimmed sequence and the number of draws consumed. -/
def genAttempt (σ : Nat → Nat) (pos : Nat) : List Char × Nat :=
  let p1 := fyShuffle σ 'a' buildLetters pos
  let p2 := repairLoop σ 100 p1.1 p1.2
  (p2.1.take 30, p2.2)

/-- The generator `generateRetrievalAnswerSequence` (lines 6–79).  The source retries by an
unbounded recursive call (line 74); `fuel` bounds that recursion in this
embedding, with `none` meaning the computation is still retrying. -/
def generateRetrievalAnswerSequence (σ : Nat → Nat) : Nat → Option String
  | 0 => none
  | fuel+1 =>
    let p := genAttempt σ 0
    if validateAnswerSequence p.1 = [] then some (String.mk p.1)
    else generateRetrievalAnswerSequence (fun n => σ (n + p.2)) fuel

/-- The all-zero draw stream (a concrete instance of `Math.random`). -/
def zeroStream : Nat → Nat := fun _ => 0

/-- Draws realizing, from `buildLetters`, the arrangement
`abcdabcdabcdabcdabcdabcdbacbcdda` whose only adjacent duplicate sits at
positions (29,30), where the repair scan can never find a partner. -/
def D1 : List Nat := [0,0,0,16,8,17,1,9,0,0,10,2,1,0,11,3,3,0,0,4,8,1,0,5,0,1,3,0,3,2,0]

/-- An adversarial draw table (one attempt = 101 Fisher–Yates blocks of 31 draws
each): block 0 reaches the stuck arrangement, blocks 1–99 reshuffle it to
itself, block 100 swaps positions 31 and 29 so that trimming to 30 leaves the
letter d with only 6 occurrences and validation fails. -/
def badTable (n : Nat) : Nat :=
  let b := n / 31
  let k := n % 31
  if b = 0 then D1.getD k 0
  else if b ≤ 99 then 31 - k
  else if k = 0 then 29 else 31 - k

/-- The adversarial stream: periodic with the 3131 draws one failing attempt
consumes, so every retry behaves identically. -/
def badStream (n : Nat) : Nat := badTable (n % 3131)

/-- The trimmed sequence produced by every attempt of the generator run on
`badStream`: the letter d occurs only 6 times, so validation fails. -/
def badSeq : List Char :=
  ['a','b','c','d','a','b','c','d','a','b','c','d','a','b','c','d',
   'a','b','c','d','a','b','c','d','b','a','c','b','c','a']

/-- The sequence produced by the generator's first attempt on the all-zero
stream (it passes validation, consuming 31 draws and no reshuffle). -/
def zeroSeq : List Char :=
  ['a','b','a','b','a','b','a','b','a','b','a','b','a','b','c','d',
   'b','c','d','c','d','c','d','a','c','d','c','d','c','d']

/-! ## The option shuffler, shuffle-quiz.ts -/

structure QuizQuestion where
  question : String
  options : List String
deriving DecidableEq

structure QuizTopic where
  name : String
  questions : List QuizQuestion
deriving DecidableEq

/-- Answer-key entries are single letters; a JS `answer_key[flatIndex]` read
past the end of the array (`undefined`) is modelled by `Option` at use sites. -/
structure QuizData where
  title : String
  topics : List QuizTopic
  answer_key : List Char
deriving DecidableEq

/-- The constant `LETTERS = ["a", "b", "c", "d"]` (line 6). -/
def LETTERS : List Char := ['a', 'b', 'c', 'd']

/-- The mapping `letterToIndex = { a: 0, b: 1, c: 2, d: 3 }` (line 7); any other lookup,
including the `undefined` entry of an exhausted key, yields `undefined`. -/
def letterToIndex : Char → Option Nat
  | 'a' => some 0
  | 'b' => some 1
  | 'c' => some 2
  | 'd' => some 3
  | _ => none

/-- The three `throw` sites inside the per-question body of `shuffleQuiz`
(lines 44–78), one constructor per `throw new Error` message:
`malformedQuestion f` = "Question at index f must have exactly 4 options.";
`invalidAnswerKeyEntry e p` = "Invalid answer key entry e at position p."
(`none` standing for JS `undefined`);
`internalConsistency p` = "Could not locate correct option after shuffling
question p."  (The top-level check of line 36 is enforced by the types.) -/
inductive ShuffleError where
  | malformedQuestion (flatIndex : Nat)
  | invalidAnswerKeyEntry (entry : Option Char) (position : Nat)
  | internalConsistency (position : Nat)
deriving DecidableEq

/-- The body of the inner `map` of `shuffleQuiz` (lines 44–86) for the question
at flattened position `flatIndex`: validate, tag options with their original
index, shuffle, find the new correct index, emit the rebuilt question and the
new answer-key letter.  Also returns the advanced draw position. -/
def processQuestion (key : List Char) (σ : Nat → Nat) (flatIndex pos : Nat)
    (q : QuizQuestion) : Except ShuffleError (QuizQuestion × Char × Nat) :=
  if q.options.length = 4 then
    match (key.get? flatIndex).bind letterToIndex with
    | none => .error (.invalidAnswerKeyEntry (key.get? flatIndex) (flatIndex + 1))
    | some correctOriginalIndex =>
      let optionsWithIndex := q.options.enum.map (fun p => (p.2, p.1))
      let sh := fyShuffle σ ("", 0) optionsWithIndex pos
      match sh.1.findIdx? (fun opt => opt.2 == correctOriginalIndex) with
      | none => .error (.internalConsistency (flatIndex + 1))
      | some newCorrectIndex =>
        .ok ({ q with options := sh.1.map Prod.fst },
             LETTERS.getD newCorrectIndex 'a', sh.2)
  else .error (.malformedQuestion flatIndex)

/-- The inner `topic.questions.map` with the mutable `flatIndex` and
`updatedAnswerKey` made explicit: returns the rebuilt questions, the answer-key
letters they contributed, the next flat index and the next draw position. -/
def processQuestions (key : List Char) (σ : Nat → Nat) :
    List QuizQuestion → Nat → Nat →
    Except ShuffleError (List QuizQuestion × List Char × Nat × Nat)
  | [], flatIndex, pos => .ok ([], [], flatIndex, pos)
  | q :: qs, flatIndex, pos =>
    match processQuestion key σ flatIndex pos q with
    | .error e => .error e
    | .ok (q', ltr, pos') =>
      match processQuestions key σ qs (flatIndex + 1) pos' with
      | .error e => .error e
      | .ok (qs', ltrs, flat'', pos'') => .ok (q' :: qs', ltr :: ltrs, flat'', pos'')

/-- The outer `quiz.topics.map` (lines 43–90). -/
def processTopics (key : List Char) (σ : Nat → Nat) :
    List QuizTopic → Nat → Nat →
    Except ShuffleError (List QuizTopic × List Char × Nat × Nat)
  | [], flatIndex, pos => .ok ([], [], flatIndex, pos)
  | t :: ts, flatIndex, pos =>
    match processQuestions key σ t.questions flatIndex pos with
    | .error e => .error e
    | .ok (qs', ltrs, flat', pos') =>
      match processTopics key σ ts flat' pos' with
      | .error e => .error e
      | .ok (ts', ltrs', flat'', pos'') =>
        .ok ({ t with questions := qs' } :: ts', ltrs ++ ltrs', flat'', pos'')

/-- The shuffler `shuffleQuiz` (lines 35–97): a thrown `Error` is an `Except.error`. -/
def shuffleQuiz (σ : Nat → Nat) (quiz : QuizData) : Except ShuffleError QuizData :=
  match processTopics quiz.answer_key σ quiz.topics 0 0 with
  | .error e => .error e
  | .ok (topics', updatedAnswerKey, _, _) =>
    .ok { quiz with topics := topics', answer_key := updatedAnswerKey }

/-- The flattened question list (topic order, then question order). -/
def flatQuestions (quiz : QuizData) : List QuizQuestion :=
  (quiz.topics.map QuizTopic.questions).flatten

/-- Whether a shuffle result is the defensive `InternalConsistencyError`. -/
def isInternalResult : Except ShuffleError QuizData → Bool
  | .error (.internalConsistency _) => true
  | _ => false

/-! ## Concrete inputs used in witnesses and counterexamples -/

/-- Scenario B of the spec: duplicate option text, correct answer at index 0. -/
def quizB : QuizData :=
  { title := "B"
    topics := [{ name := "T"
                 questions := [{ question := "capital?"
                                 options := ["Paris", "London", "Paris", "Berlin"] }] }]
    answer_key := ['a'] }

/-- Scenario C of the spec: answer key of two letters, a single question. -/
def quizC : QuizData :=
  { title := "C"
    topics := [{ name := "T"
                 questions := [{ question := "q"
                                 options := ["A", "B", "C", "D"] }] }]
    answer_key := ['a', 'b'] }

/-- A quiz whose first question has an invalid key entry and whose second
question is malformed (3 options). -/
def quizE : QuizData :=
  { title := "E"
    topics := [{ name := "T"
                 questions := [{ question := "q0", options := ["A", "B", "C", "D"] },
                               { question := "q1", options := ["A", "B", "C"] }] }]
    answer_key := ['e', 'a'] }

/-- A quiz whose only question has 3 options. -/
def quizM : QuizData :=
  { title := "M"
    topics := [{ name := "T"
                 questions := [{ question := "q", options := ["A", "B", "C"] }] }]
    answer_key := ['a'] }

/-- A reachable repair-pass state (a permutation of `buildLetters`): the scan
at `i = 0` sees the duplicate a,a, picks the partner `j = 3`, and the swap
creates a brand-new adjacent duplicate b,b at positions (1,2) — the pair the
three checks of lines 37–39 never look at. -/
def stateC4 : List Char :=
  ['a','a','b','b','c',
   'a','a','a','a','a','a',
   'b','b','b','b','b','b',
   'c','c','c','c','c','c','c',
   'd','d','d','d','d','d','d','d']

/-! ## Permutation facts about the embedded Fisher–Yates shuffle -/

theorem cons_set_perm (d x : α) : ∀ (xs : List α) (k : Nat), k < xs.length →
    (xs.getD k d :: xs.set k x).Perm (x :: xs)
  | y :: ys, 0, _ => by
      simpa using List.Perm.swap x y ys
  | y :: ys, k+1, h => by
      have ih := cons_set_perm d x ys k (by simpa using Nat.lt_of_succ_lt_succ h)
      have s1 : (ys.getD k d :: y :: ys.set k x).Perm (y :: ys.getD k d :: ys.set k x) :=
        List.Perm.swap y (ys.getD k d) (ys.set k x)
      have s2 : (y :: ys.getD k d :: ys.set k x).Perm (y :: x :: ys) := ih.cons y
      have s3 : (y :: x :: ys).Perm (x :: y :: ys) := List.Perm.swap x y ys
      simpa using (s1.trans s2).trans s3

theorem swapL_perm (d : α) : ∀ (l : List α) (i j : Nat), i < l.length → j < l.length →
    (swapL l i j d).Perm l
  | x :: xs, 0, 0, _, _ => by
      simp [swapL]
  | x :: xs, 0, k+1, _, hj => by
      have hk : k < xs.length := by simpa using Nat.lt_of_succ_lt_succ hj
      simpa [swapL] using cons_set_perm d x xs k hk
  | x :: xs, m+1, 0, hi, _ => by
      have hm : m < xs.length := by simpa using Nat.lt_of_succ_lt_succ hi
      simpa [swapL] using cons_set_perm d x xs m hm
  | x :: xs, m+1, k+1, hi, hj => by
      have hm : m < xs.length := by simpa using Nat.lt_of_succ_lt_succ hi
      have hk : k < xs.length := by simpa using Nat.lt_of_succ_lt_succ hj
      have ih := swapL_perm d xs m k hm hk
      simpa [swapL] using ih.cons x

theorem swapL_length (d : α) (l : List α) (i j : Nat) :
    (swapL l i j d).length = l.length := by
  simp [swapL]

theorem fyLoop_perm (σ : Nat → Nat) (d : α) : ∀ (i : Nat) (l : List α) (pos : Nat),
    i < l.length → ((fyLoop σ d l i pos).1).Perm l
  | 0, l, pos, _ => by simp [fyLoop]
  | i+1, l, pos, h => by
      have hj : σ pos % (i+2) < l.length :=
        Nat.lt_of_lt_of_le (Nat.mod_lt _ (by omega)) h
      have hswap := swapL_perm d l (i+1) (σ pos % (i+2)) h hj
      have hlen : i < (swapL l (i+1) (σ pos % (i+2)) d).length := by
        rw [swapL_length]; omega
      have ih := fyLoop_perm σ d i (swapL l (i+1) (σ pos % (i+2)) d) (pos+1) hlen
      exact (ih.trans hswap)

theorem fyShuffle_perm (σ : Nat → Nat) (d : α) (l : List α) (pos : Nat) :
    ((fyShuffle σ d l pos).1).Perm l := by
  cases l with
  | nil => simp [fyShuffle, fyLoop]
  | cons x xs =>
    exact fyLoop_perm σ d ((x :: xs).length - 1) (x :: xs) pos (by simp)

theorem fyShuffle_length (σ : Nat → Nat) (d : α) (l : List α) (pos : Nat) :
    ((fyShuffle σ d l pos).1).length = l.length :=
  (fyShuffle_perm σ d l pos).length_eq

/-! ## What an empty validation-error list means -/

theorem validate_nil_parts {s : List Char} (h : validateAnswerSequence s = []) :
    s.length = 30
    ∧ (∀ i, i + 1 < s.length → s.getD i 'a' ≠ s.getD (i+1) 'a')
    ∧ (∀ c ∈ s, c ∈ genLetters)
    ∧ (∀ c ∈ genLetters, 7 ≤ s.count c ∧ s.count c ≤ 8) := by
  simp only [validateAnswerSequence, List.append_eq_nil, List.filterMap_eq_nil_iff] at h
  obtain ⟨⟨⟨h1, h2⟩, h3⟩, h4⟩ := h
  refine ⟨?_, ?_, ?_, ?_⟩
  · by_contra hn; simp [hn] at h1
  · intro i hi heq
    have := h2 i (List.mem_range.mpr (by omega))
    rw [if_pos heq] at this
    cases this
  · intro c hc
    by_contra hn
    have := h3 c hc
    simp [hn] at this
  · intro c hc
    have := h4 c hc
    by_contra hn
    rw [if_pos (by omega)] at this
    cases this

theorem count_sum_eq_length : ∀ (s : List Char), (∀ c ∈ s, c ∈ genLetters) →
    (genLetters.map (fun c => s.count c)).sum = s.length
  | [], _ => by simp
  | x :: xs, h => by
      have hx : x ∈ genLetters := h x (by simp)
      have ih := count_sum_eq_length xs (fun c hc => h c (List.mem_cons_of_mem _ hc))
      simp only [genLetters, List.mem_cons, List.not_mem_nil, or_false] at hx
      rcases hx with rfl | rfl | rfl | rfl
      all_goals
        simp [genLetters, List.count_cons] at ih ⊢
      all_goals omega

theorem data_mk (l : List Char) : (String.mk l).data = l := rfl

/-- Anything the generator returns passed validation: the only `return` path
of `generateRetrievalAnswerSequence` (line 78) follows the `isValid` check. -/
theorem gen_some_validate : ∀ (fuel : Nat) (σ : Nat → Nat) (str : String),
    generateRetrievalAnswerSequence σ fuel = some str →
    validateAnswerSequence str.data = []
  | 0, σ, str, h => by simp [generateRetrievalAnswerSequence] at h
  | fuel+1, σ, str, h => by
      simp only [generateRetrievalAnswerSequence] at h
      split at h
      · next hv =>
          obtain rfl := Option.some.inj h
          rw [data_mk]
          exact hv
      · next hv => exact gen_some_validate fuel _ str h

/-- The generator's first attempt on the all-zero stream succeeds with `zeroSeq`. -/
theorem gen_zero_eval : generateRetrievalAnswerSequence zeroStream 1 = some (String.mk zeroSeq) := by
  decide

/-- C5: whenever `generateRetrievalAnswerSequence` returns a sequence, no two
adjacent entries of it are equal. -/
theorem generated_no_adjacent_dup (σ : Nat → Nat) (fuel : Nat) (str : String)
    (h : generateRetrievalAnswerSequence σ fuel = some str) :
    ∀ i, i + 1 < str.data.length → str.data.getD i 'a' ≠ str.data.getD (i+1) 'a' :=
  (validate_nil_parts (gen_some_validate fuel σ str h)).2.1

/-- Witness for C5 at the all-zero stream with one unit of retry fuel. -/
theorem generated_no_adjacent_dup_witness :
    (String.mk zeroSeq).data.getD 0 'a' ≠ (String.mk zeroSeq).data.getD 1 'a' :=
  generated_no_adjacent_dup zeroStream 1 (String.mk zeroSeq) gen_zero_eval 0 (by decide)

/-- C6: whenever `generateRetrievalAnswerSequence` returns, the sequence has
exactly 30 symbols, all drawn from {a,b,c,d}, each letter occurring 7 or 8
times, and the four counts sum to 30. -/
theorem generated_length_and_distribution (σ : Nat → Nat) (fuel : Nat) (str : String)
    (h : generateRetrievalAnswerSequence σ fuel = some str) :
    str.data.length = 30
    ∧ (∀ c ∈ str.data, c ∈ genLetters)
    ∧ (∀ c ∈ genLetters, 7 ≤ str.data.count c ∧ str.data.count c ≤ 8)
    ∧ (genLetters.map (fun c => str.data.count c)).sum = 30 := by
  have hv := validate_nil_parts (gen_some_validate fuel σ str h)
  refine ⟨hv.1, hv.2.2.1, hv.2.2.2, ?_⟩
  rw [count_sum_eq_length str.data hv.2.2.1, hv.1]

/-- Witness for C6 at the all-zero stream with one unit of retry fuel. -/
theorem generated_length_and_distribution_witness : (String.mk zeroSeq).data.length = 30 :=
  (generated_length_and_distribution zeroStream 1 (String.mk zeroSeq) gen_zero_eval).1

/-! ## The retry recursion of the generator never terminates on `badStream` -/

/-- On `badStream`, one attempt runs the initial shuffle plus 100 repair passes
that each reshuffle (101 blocks of 31 draws), and the trimmed result is
`badSeq`. -/
theorem badAttempt_eval : genAttempt badStream 0 = (badSeq, 3131) := by decide

/-- The sequence `badSeq` fails validation (the letter d occurs only 6 times). -/
theorem badSeq_invalid : ¬ validateAnswerSequence badSeq = [] := by decide

/-- The stream `badStream` is periodic with exactly the number of draws a failing attempt
consumes, so the recursive retry sees the same stream again. -/
theorem badStream_shift : (fun n => badStream (n + 3131)) = badStream := by
  funext n
  simp only [badStream, Nat.add_mod_right]

theorem gen_bad_none : ∀ fuel, generateRetrievalAnswerSequence badStream fuel = none
  | 0 => rfl
  | fuel+1 => by
      simp only [generateRetrievalAnswerSequence, badAttempt_eval]
      rw [if_neg badSeq_invalid, badStream_shift]
      exact gen_bad_none fuel

/-- C3 (counterexample): on the adversarial stream `badStream` the generator is
still retrying after 101 full generation attempts — far past any fixed budget —
having produced neither a sequence nor any `GenerationExhausted` error (the
source has no error path at all: its only non-return statement is the unbounded
recursive call of line 74). -/
theorem generation_still_retrying_after_101 :
    generateRetrievalAnswerSequence badStream 101 = none :=
  gen_bad_none 101

/-- C3 (amended): the inner repair loop is bounded (100 passes), but the
retry-until-valid recursion of `generateRetrievalAnswerSequence` is not: on the
adversarial stream `badStream` every attempt fails validation and the generator
retries forever, never terminating and never reporting an error. -/
theorem generation_retries_without_bound :
    ∀ fuel, generateRetrievalAnswerSequence badStream fuel = none :=
  gen_bad_none

/-! ## findIdx? facts -/

theorem findIdx?_some_of_mem {α : Type _} {p : α → Bool} :
    ∀ (l : List α) (i : Nat), (∃ x ∈ l, p x) → (List.findIdx? p l i).isSome
  | [], _, h => by simp at h
  | x :: xs, i, h => by
      rw [List.findIdx?_cons]
      by_cases hp : p x
      · simp [hp]
      · obtain ⟨y, hy, hpy⟩ := h
        rcases List.mem_cons.mp hy with rfl | hy'
        · exact absurd hpy hp
        · simpa [hp] using findIdx?_some_of_mem xs (i+1) ⟨y, hy', hpy⟩

theorem findIdx?_some_spec {α : Type _} {p : α → Bool} :
    ∀ (l : List α) (i m : Nat), List.findIdx? p l i = some m →
    i ≤ m ∧ ∃ x, l.get? (m - i) = some x ∧ p x
  | [], i, m, h => by simp [List.findIdx?] at h
  | x :: xs, i, m, h => by
      rw [List.findIdx?_cons] at h
      by_cases hp : p x
      · rw [if_pos hp] at h
        obtain rfl := Option.some.inj h
        exact ⟨Nat.le_refl _, x, by simp, hp⟩
      · rw [if_neg hp] at h
        obtain ⟨hle, y, hy, hpy⟩ := findIdx?_some_spec xs (i+1) m h
        refine ⟨by omega, y, ?_, hpy⟩
        have hmi : m - i = (m - (i+1)) + 1 := by omega
        rw [hmi]
        simpa using hy

/-! ## The tagged-options list -/

theorem tagged_get? (l : List String) (k : Nat) (hk : k < l.length) :
    (l.enum.map (fun p => (p.2, p.1))).get? k = some (l.getD k "", k) := by
  rw [List.get?_eq_getElem?, List.getElem?_map, List.getElem?_enum,
    List.getElem?_eq_getElem hk, List.getD_eq_getElem l "" hk]
  rfl

theorem tagged_mem (l : List String) (k : Nat) (hk : k < l.length) :
    (l.getD k "", k) ∈ l.enum.map (fun p => (p.2, p.1)) := by
  exact List.get?_mem (tagged_get? l k hk)

theorem tagged_map_fst (l : List String) :
    (l.enum.map (fun p => (p.2, p.1))).map Prod.fst = l := by
  rw [List.map_map]
  exact List.enum_map_snd l

theorem tagged_map_snd (l : List String) :
    (l.enum.map (fun p => (p.2, p.1))).map Prod.snd = List.range l.length := by
  rw [List.map_map]
  exact List.enum_map_fst l

theorem tagged_length (l : List String) :
    (l.enum.map (fun p => (p.2, p.1))).length = l.length := by
  simp

/-! ## Per-question facts about the shuffler -/

theorem letterToIndex_lt {c : Char} {k : Nat} (h : letterToIndex c = some k) : k < 4 := by
  unfold letterToIndex at h
  split at h <;> first
    | (obtain rfl := Option.some.inj h; omega)
    | cases h

/-- Once the 4-options check and the answer-key lookup both pass, the
`findIdx?` of line 69 always succeeds: the tagged pair carrying the correct
original index is in the shuffled list because shuffling permutes tags. -/
theorem shuffled_findIdx_isSome (σ : Nat → Nat) (pos : Nat) (q : QuizQuestion)
    (hq4 : q.options.length = 4) {k : Nat} (hk4 : k < 4) :
    ((fyShuffle σ ("", 0) (q.options.enum.map (fun p => (p.2, p.1))) pos).1.findIdx?
      (fun opt => opt.2 == k)).isSome := by
  have hperm := fyShuffle_perm σ ("", 0) (q.options.enum.map (fun p => (p.2, p.1))) pos
  have hmem : (q.options.getD k "", k) ∈
      (fyShuffle σ ("", 0) (q.options.enum.map (fun p => (p.2, p.1))) pos).1 :=
    hperm.mem_iff.mpr (tagged_mem q.options k (by omega))
  exact findIdx?_some_of_mem _ 0 ⟨_, hmem, by simp⟩

theorem processQuestion_malformed (key : List Char) (σ : Nat → Nat) (f pos : Nat)
    (q : QuizQuestion) (hq4 : q.options.length ≠ 4) :
    processQuestion key σ f pos q = .error (.malformedQuestion f) := by
  simp only [processQuestion, if_neg hq4]

theorem processQuestion_invalid_key (key : List Char) (σ : Nat → Nat) (f pos : Nat)
    (q : QuizQuestion) (hq4 : q.options.length = 4)
    (hk : (key.get? f).bind letterToIndex = none) :
    processQuestion key σ f pos q = .error (.invalidAnswerKeyEntry (key.get? f) (f + 1)) := by
  simp only [processQuestion, if_pos hq4, hk]

theorem processQuestion_ok_of_valid (key : List Char) (σ : Nat → Nat) (f pos : Nat)
    (q : QuizQuestion) (hq4 : q.options.length = 4)
    {k : Nat} (hk : (key.get? f).bind letterToIndex = some k) :
    ∃ q' ltr pos', processQuestion key σ f pos q = .ok (q', ltr, pos') := by
  have hk4 : k < 4 := by
    cases hkey : key.get? f with
    | none => rw [hkey] at hk; cases hk
    | some c =>
        rw [hkey] at hk
        exact letterToIndex_lt (by simpa using hk)
  simp only [processQuestion, if_pos hq4, hk]
  obtain ⟨m, hm⟩ := Option.isSome_iff_exists.mp (shuffled_findIdx_isSome σ pos q hq4 hk4)
  rw [hm]
  exact ⟨_, _, _, rfl⟩

/-- Any error produced by the per-question body is one of the two input
validation errors — never the defensive internal-consistency one. -/
theorem processQuestion_error_shape (key : List Char) (σ : Nat → Nat) (f pos : Nat)
    (q : QuizQuestion) (e : ShuffleError)
    (h : processQuestion key σ f pos q = .error e) :
    e = .malformedQuestion f ∨ e = .invalidAnswerKeyEntry (key.get? f) (f + 1) := by
  by_cases hq4 : q.options.length = 4
  · cases hk : (key.get? f).bind letterToIndex with
    | none =>
        rw [processQuestion_invalid_key key σ f pos q hq4 hk] at h
        exact Or.inr (Except.error.inj h).symm
    | some k =>
        obtain ⟨q', ltr, pos', hok⟩ := processQuestion_ok_of_valid key σ f pos q hq4 hk
        rw [hok] at h
        cases h
  · rw [processQuestion_malformed key σ f pos q hq4] at h
    exact Or.inl (Except.error.inj h).symm

theorem key_lookup_lt {key : List Char} {f k : Nat}
    (hk : (key.get? f).bind letterToIndex = some k) : k < 4 := by
  cases hkey : key.get? f with
  | none => rw [hkey] at hk; cases hk
  | some c =>
      rw [hkey] at hk
      exact letterToIndex_lt (by simpa using hk)

/-- A successful per-question run only reorders: the question text is kept and
the emitted options are a permutation of the input options. -/
theorem processQuestion_ok_perm (key : List Char) (σ : Nat → Nat) (f pos : Nat)
    (q q' : QuizQuestion) (ltr : Char) (pos' : Nat)
    (h : processQuestion key σ f pos q = .ok (q', ltr, pos')) :
    q'.question = q.question ∧ q'.options.Perm q.options := by
  by_cases hq4 : q.options.length = 4
  · simp only [processQuestion, if_pos hq4] at h
    cases hk : (key.get? f).bind letterToIndex with
    | none => simp only [hk] at h; exact Except.noConfusion h
    | some k =>
        simp only [hk] at h
        cases hfind : (fyShuffle σ ("", 0) (q.options.enum.map (fun p => (p.2, p.1))) pos).1.findIdx?
            (fun opt => opt.2 == k) with
        | none => simp only [hfind] at h; exact Except.noConfusion h
        | some m =>
            simp only [hfind] at h
            injection h with h1
            rw [Prod.mk.injEq, Prod.mk.injEq] at h1
            obtain ⟨rfl, rfl, rfl⟩ := h1
            refine ⟨rfl, ?_⟩
            have hperm := (fyShuffle_perm σ ("", 0)
              (q.options.enum.map (fun p => (p.2, p.1))) pos).map Prod.fst
            rwa [tagged_map_fst] at hperm
  · rw [processQuestion_malformed key σ f pos q hq4] at h
    exact Except.noConfusion h

/-- The heart of C1: a successful per-question run emits the letter of the new
position `m` of the very option that sat at the correct original index `k`,
tracked by its tag even across duplicate texts. -/
theorem processQuestion_ok_correct (key : List Char) (σ : Nat → Nat) (f pos : Nat)
    (q q' : QuizQuestion) (ltr : Char) (pos' : Nat) {k : Nat}
    (hk : (key.get? f).bind letterToIndex = some k)
    (h : processQuestion key σ f pos q = .ok (q', ltr, pos')) :
    ∃ m, m < 4 ∧ ltr = LETTERS.getD m 'a' ∧ q'.options.get? m = q.options.get? k := by
  by_cases hq4 : q.options.length = 4
  · have hk4 : k < 4 := key_lookup_lt hk
    simp only [processQuestion, if_pos hq4, hk] at h
    cases hfind : (fyShuffle σ ("", 0) (q.options.enum.map (fun p => (p.2, p.1))) pos).1.findIdx?
        (fun opt => opt.2 == k) with
    | none => simp only [hfind] at h; exact Except.noConfusion h
    | some m =>
        simp only [hfind] at h
        injection h with h1
        rw [Prod.mk.injEq, Prod.mk.injEq] at h1
        obtain ⟨rfl, rfl, rfl⟩ := h1
        have hperm : ((fyShuffle σ ("", 0) (q.options.enum.map (fun p => (p.2, p.1))) pos).1).Perm
            (q.options.enum.map (fun p => (p.2, p.1))) :=
          fyShuffle_perm σ ("", 0) _ pos
        obtain ⟨-, x, hx, hpx⟩ := findIdx?_some_spec _ 0 m hfind
        simp only [Nat.sub_zero] at hx
        have hxmem := List.get?_mem hx
        have hymem : (q.options.getD k "", k) ∈
            (fyShuffle σ ("", 0) (q.options.enum.map (fun p => (p.2, p.1))) pos).1 :=
          hperm.mem_iff.mpr (tagged_mem q.options k (by omega))
        have hnd : (((fyShuffle σ ("", 0) (q.options.enum.map (fun p => (p.2, p.1))) pos).1).map
            Prod.snd).Nodup := by
          refine ((hperm.map Prod.snd).nodup_iff).mpr ?_
          rw [tagged_map_snd]
          exact List.nodup_range _
        have hx2 : x.2 = k := by simpa using hpx
        have hxy : x = (q.options.getD k "", k) :=
          List.inj_on_of_nodup_map hnd hxmem hymem (by simp [hx2])
        have hm4 : m < 4 := by
          obtain ⟨hmlt, -⟩ := List.get?_eq_some.mp hx
          rw [fyShuffle_length, tagged_length, hq4] at hmlt
          exact hmlt
        refine ⟨m, hm4, rfl, ?_⟩
        show (((fyShuffle σ ("", 0) (q.options.enum.map (fun p => (p.2, p.1))) pos).1).map
          Prod.fst).get? m = q.options.get? k
        rw [List.get?_eq_getElem?, List.getElem?_map, ← List.get?_eq_getElem?, hx, hxy]
        rw [List.get?_eq_getElem?, List.getElem?_eq_getElem (by omega : k < q.options.length),
          List.getD_eq_getElem q.options "" (by omega)]
        rfl
  · rw [processQuestion_malformed key σ f pos q hq4] at h
    exact Except.noConfusion h

/-! ## Folding over questions and topics -/

theorem processQuestions_append_error (key : List Char) (σ : Nat → Nat) :
    ∀ (xs ys : List QuizQuestion) (f pos : Nat) (e : ShuffleError),
    processQuestions key σ xs f pos = .error e →
    processQuestions key σ (xs ++ ys) f pos = .error e
  | [], ys, f, pos, e, h => by simp [processQuestions] at h
  | x :: xs, ys, f, pos, e, h => by
      simp only [List.cons_append, processQuestions] at h ⊢
      cases hx : processQuestion key σ f pos x with
      | error e0 => simp only [hx] at h ⊢; exact h
      | ok r =>
          obtain ⟨q', ltr, pos'⟩ := r
          simp only [hx] at h ⊢
          cases hrest : processQuestions key σ xs (f+1) pos' with
          | error e1 =>
              simp only [hrest] at h
              obtain rfl := Except.error.inj h
              have ih := processQuestions_append_error key σ xs ys (f+1) pos' _ hrest
              simp only [List.append_eq]
              simp only [ih]
          | ok r2 =>
              obtain ⟨xs', ls, f1, p1⟩ := r2
              simp only [hrest] at h
              exact Except.noConfusion h

theorem processQuestions_append_ok (key : List Char) (σ : Nat → Nat) :
    ∀ (xs ys : List QuizQuestion) (f pos : Nat) (xs' : List QuizQuestion) (ls : List Char)
      (f1 p1 : Nat),
    processQuestions key σ xs f pos = .ok (xs', ls, f1, p1) →
    processQuestions key σ (xs ++ ys) f pos =
      (match processQuestions key σ ys f1 p1 with
       | .error e => .error e
       | .ok (ys', ls2, f2, p2) => .ok (xs' ++ ys', ls ++ ls2, f2, p2))
  | [], ys, f, pos, xs', ls, f1, p1, h => by
      simp only [processQuestions] at h
      injection h with h1
      rw [Prod.mk.injEq, Prod.mk.injEq, Prod.mk.injEq] at h1
      obtain ⟨rfl, rfl, rfl, rfl⟩ := h1
      simp only [List.nil_append]
      cases hys : processQuestions key σ ys f pos with
      | error e => rfl
      | ok r => obtain ⟨ys', ls2, f2, p2⟩ := r; rfl
  | x :: xs, ys, f, pos, xs', ls, f1, p1, h => by
      simp only [List.cons_append, processQuestions] at h ⊢
      cases hx : processQuestion key σ f pos x with
      | error e0 => simp only [hx] at h; exact Except.noConfusion h
      | ok r =>
          obtain ⟨q', ltr, pos'⟩ := r
          simp only [hx] at h ⊢
          cases hrest : processQuestions key σ xs (f+1) pos' with
          | error e1 => simp only [hrest] at h; exact Except.noConfusion h
          | ok r2 =>
              obtain ⟨xs1, ls1, ff, pp⟩ := r2
              simp only [hrest] at h
              injection h with h1
              rw [Prod.mk.injEq, Prod.mk.injEq, Prod.mk.injEq] at h1
              obtain ⟨rfl, rfl, rfl, rfl⟩ := h1
              simp only [List.append_eq]
              rw [processQuestions_append_ok key σ xs ys (f+1) pos' xs1 ls1 ff pp hrest]
              cases hys : processQuestions key σ ys ff pp with
              | error e => rfl
              | ok r3 => obtain ⟨ys', ls2, f2, p2⟩ := r3; rfl

theorem processQuestions_ok_facts (key : List Char) (σ : Nat → Nat) :
    ∀ (qs : List QuizQuestion) (f pos : Nat) (qs' : List QuizQuestion) (ls : List Char)
      (f' p' : Nat),
    processQuestions key σ qs f pos = .ok (qs', ls, f', p') →
    qs'.length = qs.length ∧ ls.length = qs.length
    ∧ ∀ g q, qs.get? g = some q → ∃ p1 q' ltr p2,
        processQuestion key σ (f + g) p1 q = .ok (q', ltr, p2)
        ∧ qs'.get? g = some q' ∧ ls.get? g = some ltr
  | [], f, pos, qs', ls, f', p', h => by
      simp only [processQuestions] at h
      injection h with h1
      rw [Prod.mk.injEq, Prod.mk.injEq, Prod.mk.injEq] at h1
      obtain ⟨rfl, rfl, rfl, rfl⟩ := h1
      refine ⟨rfl, rfl, ?_⟩
      intro g q hg
      simp at hg
  | q0 :: qs, f, pos, qs', ls, f', p', h => by
      simp only [processQuestions] at h
      cases hq0 : processQuestion key σ f pos q0 with
      | error e => simp only [hq0] at h; exact Except.noConfusion h
      | ok r =>
          obtain ⟨q0', ltr0, pos0⟩ := r
          simp only [hq0] at h
          cases hrest : processQuestions key σ qs (f+1) pos0 with
          | error e => simp only [hrest] at h; exact Except.noConfusion h
          | ok r2 =>
              obtain ⟨qs1, ls1, f1, p1⟩ := r2
              simp only [hrest] at h
              injection h with h1
              rw [Prod.mk.injEq, Prod.mk.injEq, Prod.mk.injEq] at h1
              obtain ⟨rfl, rfl, rfl, rfl⟩ := h1
              obtain ⟨hl1, hl2, hidx⟩ :=
                processQuestions_ok_facts key σ qs (f+1) pos0 qs1 ls1 f1 p1 hrest
              refine ⟨by simp [hl1], by simp [hl2], ?_⟩
              intro g q hg
              cases g with
              | zero =>
                  simp only [List.get?_cons_zero] at hg
                  obtain rfl := Option.some.inj hg
                  exact ⟨pos, q0', ltr0, pos0, by simpa using hq0, by simp, by simp⟩
              | succ g' =>
                  simp only [List.get?_cons_succ] at hg
                  obtain ⟨pp1, qq', ltr, pp2, ha, hb, hc⟩ := hidx g' q hg
                  refine ⟨pp1, qq', ltr, pp2, ?_, by simpa using hb, by simpa using hc⟩
                  rw [show f + (g' + 1) = f + 1 + g' from by omega]
                  exact ha

theorem processQuestions_all_valid (key : List Char) (σ : Nat → Nat) :
    ∀ (qs : List QuizQuestion) (f pos : Nat),
    (∀ q ∈ qs, q.options.length = 4) →
    (∀ g, g < qs.length → ((key.get? (f+g)).bind letterToIndex).isSome) →
    ∃ qs' ls f' p', processQuestions key σ qs f pos = .ok (qs', ls, f', p')
  | [], f, pos, _, _ => ⟨[], [], f, pos, rfl⟩
  | q0 :: qs, f, pos, h4, hkey => by
      have hq04 := h4 q0 (by simp)
      obtain ⟨k, hk⟩ := Option.isSome_iff_exists.mp (hkey 0 (by simp))
      obtain ⟨q0', ltr0, pos0, hok⟩ := processQuestion_ok_of_valid key σ f pos q0 hq04 hk
      obtain ⟨qs1, ls1, f1, p1, hrest⟩ := processQuestions_all_valid key σ qs (f+1) pos0
        (fun q hq => h4 q (List.mem_cons_of_mem _ hq))
        (fun g hg => by
          rw [show f + 1 + g = f + (g + 1) from by omega]
          exact hkey (g+1) (by simpa using Nat.succ_lt_succ hg))
      refine ⟨q0' :: qs1, ltr0 :: ls1, f1, p1, ?_⟩
      simp only [processQuestions, hok, hrest]

theorem processQuestions_first_malformed (key : List Char) (σ : Nat → Nat) :
    ∀ (qs : List QuizQuestion) (f pos g : Nat) (q : QuizQuestion),
    qs.get? g = some q → q.options.length ≠ 4 →
    (∀ g' q', g' < g → qs.get? g' = some q' →
      q'.options.length = 4 ∧ ((key.get? (f+g')).bind letterToIndex).isSome) →
    processQuestions key σ qs f pos = .error (.malformedQuestion (f + g))
  | [], f, pos, g, q, hg, _, _ => by simp at hg
  | q0 :: qs, f, pos, 0, q, hg, hbad, _ => by
      simp only [List.get?_cons_zero] at hg
      obtain rfl := Option.some.inj hg
      simp only [processQuestions, processQuestion_malformed key σ f pos q0 hbad]
      rfl
  | q0 :: qs, f, pos, g+1, q, hg, hbad, hpre => by
      obtain ⟨hq04, hkey0⟩ := hpre 0 q0 (by omega) (by simp)
      obtain ⟨k, hk⟩ := Option.isSome_iff_exists.mp hkey0
      obtain ⟨q0', ltr0, pos0, hok⟩ := processQuestion_ok_of_valid key σ f pos q0 hq04 hk
      have hrec := processQuestions_first_malformed key σ qs (f+1) pos0 g q
        (by simpa using hg) hbad
        (fun g' q' hlt hg' => by
          rw [show f + 1 + g' = f + (g' + 1) from by omega]
          exact hpre (g'+1) q' (by omega) (by simpa using hg'))
      simp only [processQuestions, hok, hrec]
      rw [show f + 1 + g = f + (g + 1) from by omega]

theorem processQuestions_error_shape (key : List Char) (σ : Nat → Nat) :
    ∀ (qs : List QuizQuestion) (f pos : Nat) (e : ShuffleError),
    processQuestions key σ qs f pos = .error e →
    ∃ f', e = .malformedQuestion f' ∨ e = .invalidAnswerKeyEntry (key.get? f') (f' + 1)
  | [], f, pos, e, h => by simp [processQuestions] at h
  | q0 :: qs, f, pos, e, h => by
      simp only [processQuestions] at h
      cases hq0 : processQuestion key σ f pos q0 with
      | error e0 =>
          simp only [hq0] at h
          obtain rfl := Except.error.inj h
          exact ⟨f, processQuestion_error_shape key σ f pos q0 e0 hq0⟩
      | ok r =>
          obtain ⟨q0', ltr0, pos0⟩ := r
          simp only [hq0] at h
          cases hrest : processQuestions key σ qs (f+1) pos0 with
          | error e1 =>
              simp only [hrest] at h
              obtain rfl := Except.error.inj h
              exact processQuestions_error_shape key σ qs (f+1) pos0 e1 hrest
          | ok r2 =>
              obtain ⟨qs1, ls1, f1, p1⟩ := r2
              simp only [hrest] at h
              exact Except.noConfusion h

theorem processTopics_ok_flat (key : List Char) (σ : Nat → Nat) :
    ∀ (ts : List QuizTopic) (f pos : Nat) (ts' : List QuizTopic) (ls : List Char) (f' p' : Nat),
    processTopics key σ ts f pos = .ok (ts', ls, f', p') →
    processQuestions key σ ((ts.map QuizTopic.questions).flatten) f pos =
      .ok ((ts'.map QuizTopic.questions).flatten, ls, f', p')
  | [], f, pos, ts', ls, f', p', h => by
      simp only [processTopics] at h
      injection h with h1
      rw [Prod.mk.injEq, Prod.mk.injEq, Prod.mk.injEq] at h1
      obtain ⟨rfl, rfl, rfl, rfl⟩ := h1
      rfl
  | t :: ts, f, pos, ts', ls, f', p', h => by
      simp only [processTopics] at h
      cases hq : processQuestions key σ t.questions f pos with
      | error e => simp only [hq] at h; exact Except.noConfusion h
      | ok r =>
          obtain ⟨qs1, ls1, f1, p1⟩ := r
          simp only [hq] at h
          cases ht : processTopics key σ ts f1 p1 with
          | error e => simp only [ht] at h; exact Except.noConfusion h
          | ok r2 =>
              obtain ⟨ts2, ls2, f2, p2⟩ := r2
              simp only [ht] at h
              injection h with h1
              rw [Prod.mk.injEq, Prod.mk.injEq, Prod.mk.injEq] at h1
              obtain ⟨rfl, rfl, rfl, rfl⟩ := h1
              have ih := processTopics_ok_flat key σ ts f1 p1 ts2 ls2 f2 p2 ht
              simp only [List.map_cons, List.flatten_cons]
              rw [processQuestions_append_ok key σ t.questions _ f pos qs1 ls1 f1 p1 hq, ih]

theorem processTopics_error_to_flat (key : List Char) (σ : Nat → Nat) :
    ∀ (ts : List QuizTopic) (f pos : Nat) (e : ShuffleError),
    processTopics key σ ts f pos = .error e →
    processQuestions key σ ((ts.map QuizTopic.questions).flatten) f pos = .error e
  | [], f, pos, e, h => by simp [processTopics] at h
  | t :: ts, f, pos, e, h => by
      simp only [processTopics] at h
      simp only [List.map_cons, List.flatten_cons]
      cases hq : processQuestions key σ t.questions f pos with
      | error e0 =>
          simp only [hq] at h
          obtain rfl := Except.error.inj h
          exact processQuestions_append_error key σ t.questions _ f pos _ hq
      | ok r =>
          obtain ⟨qs1, ls1, f1, p1⟩ := r
          simp only [hq] at h
          cases ht : processTopics key σ ts f1 p1 with
          | error e1 =>
              simp only [ht] at h
              obtain rfl := Except.error.inj h
              rw [processQuestions_append_ok key σ t.questions _ f pos qs1 ls1 f1 p1 hq,
                processTopics_error_to_flat key σ ts f1 p1 _ ht]
          | ok r2 =>
              obtain ⟨ts2, ls2, f2, p2⟩ := r2
              simp only [ht] at h
              exact Except.noConfusion h

/-! ## shuffleQuiz-level theorems -/

/-- C1: for every quiz meeting the shuffler's preconditions, the option found
at the new correct index named by the output answer key is the very option that
sat at the original correct index `k` before shuffling — identity tracked by
original-index tags, so duplicate option texts cannot confuse it. -/
theorem shuffle_preserves_correct_option (σ : Nat → Nat) (quiz : QuizData)
    (f k : Nat) (q : QuizQuestion)
    (h4 : ∀ qq ∈ flatQuestions quiz, qq.options.length = 4)
    (hkey : ∀ g, g < (flatQuestions quiz).length →
      ((quiz.answer_key.get? g).bind letterToIndex).isSome)
    (hq : (flatQuestions quiz).get? f = some q)
    (hk : (quiz.answer_key.get? f).bind letterToIndex = some k) :
    ∃ out q' m, shuffleQuiz σ quiz = .ok out
      ∧ out.answer_key.get? f = some (LETTERS.getD m 'a')
      ∧ m < 4
      ∧ (flatQuestions out).get? f = some q'
      ∧ q'.options.get? m = q.options.get? k := by
  obtain ⟨qs', ls, f', p', hflat⟩ := processQuestions_all_valid quiz.answer_key σ
    ((quiz.topics.map QuizTopic.questions).flatten) 0 0
    (fun qq hqq => h4 qq hqq)
    (fun g hg => by rw [Nat.zero_add]; exact hkey g hg)
  obtain ⟨hlen1, hlen2, hidx⟩ :=
    processQuestions_ok_facts quiz.answer_key σ _ 0 0 _ _ _ _ hflat
  obtain ⟨p1, q', ltr, p2', hokq, hq', hltr⟩ := hidx f q hq
  obtain ⟨m, hm4, rfl, hopt⟩ := processQuestion_ok_correct quiz.answer_key σ (0+f) p1 q q'
    ltr p2' (by rw [Nat.zero_add]; exact hk) hokq
  cases htop : processTopics quiz.answer_key σ quiz.topics 0 0 with
  | error e =>
      have hcontra := processTopics_error_to_flat quiz.answer_key σ quiz.topics 0 0 e htop
      rw [hflat] at hcontra
      exact Except.noConfusion hcontra
  | ok r =>
      obtain ⟨ts', ls2, f2, p2⟩ := r
      have hflat2 := processTopics_ok_flat quiz.answer_key σ quiz.topics 0 0 ts' ls2 f2 p2 htop
      rw [hflat] at hflat2
      injection hflat2 with h1
      rw [Prod.mk.injEq, Prod.mk.injEq, Prod.mk.injEq] at h1
      obtain ⟨h1a, h1b, -, -⟩ := h1
      refine ⟨{ quiz with topics := ts', answer_key := ls2 }, q', m, ?_, ?_, hm4, ?_, hopt⟩
      · simp only [shuffleQuiz, htop]
      · show ls2.get? f = some (LETTERS.getD m 'a')
        rw [← h1b]
        exact hltr
      · show ((ts'.map QuizTopic.questions).flatten).get? f = some q'
        rw [← h1a]
        exact hq'

/-- Witness for C1 at Scenario B of the spec — the quiz with duplicate option
text "Paris" at original indices 0 and 2 and correct answer at 0. -/
theorem shuffle_preserves_correct_option_witness :
    ∃ out q' m, shuffleQuiz zeroStream quizB = .ok out
      ∧ out.answer_key.get? 0 = some (LETTERS.getD m 'a')
      ∧ m < 4
      ∧ (flatQuestions out).get? 0 = some q'
      ∧ q'.options.get? m =
        ({ question := "capital?", options := ["Paris", "London", "Paris", "Berlin"] }
          : QuizQuestion).options.get? 0 :=
  shuffle_preserves_correct_option zeroStream quizB 0 0
    { question := "capital?", options := ["Paris", "London", "Paris", "Berlin"] }
    (by decide) (by decide) (by decide) (by decide)

/-- C8: every question the shuffler outputs carries a permutation of the
corresponding input question's options — equal as multisets of texts. -/
theorem shuffle_options_multiset_eq (σ : Nat → Nat) (quiz out : QuizData) (f : Nat)
    (q q' : QuizQuestion)
    (hok : shuffleQuiz σ quiz = .ok out)
    (hq : (flatQuestions quiz).get? f = some q)
    (hq' : (flatQuestions out).get? f = some q') :
    (q'.options : Multiset String) = (q.options : Multiset String) := by
  simp only [shuffleQuiz] at hok
  cases htop : processTopics quiz.answer_key σ quiz.topics 0 0 with
  | error e => simp only [htop] at hok; exact Except.noConfusion hok
  | ok r =>
      obtain ⟨ts', ls, f2, p2⟩ := r
      simp only [htop] at hok
      obtain rfl := Except.ok.inj hok
      have hflat := processTopics_ok_flat quiz.answer_key σ quiz.topics 0 0 ts' ls f2 p2 htop
      obtain ⟨hlen1, hlen2, hidx⟩ :=
        processQuestions_ok_facts quiz.answer_key σ _ 0 0 _ _ _ _ hflat
      obtain ⟨p1, q'', ltr, p2', hokq, hq'', hltr⟩ := hidx f q hq
      have hq'2 : ((ts'.map QuizTopic.questions).flatten).get? f = some q' := hq'
      obtain rfl := Option.some.inj (hq''.symm.trans hq'2)
      obtain ⟨-, hperm⟩ := processQuestion_ok_perm quiz.answer_key σ (0+f) p1 q q'' ltr p2' hokq
      exact Multiset.coe_eq_coe.mpr hperm

/-- Witness for C8 at Scenario B under the all-zero stream: the output options
[London, Paris, Berlin, Paris] are a permutation of the input options. -/
theorem shuffle_options_multiset_eq_witness :
    ((["London", "Paris", "Berlin", "Paris"] : List String) : Multiset String) =
      ((["Paris", "London", "Paris", "Berlin"] : List String) : Multiset String) :=
  shuffle_options_multiset_eq zeroStream quizB
    { title := "B"
      topics := [{ name := "T"
                   questions := [{ question := "capital?"
                                   options := ["London", "Paris", "Berlin", "Paris"] }] }]
      answer_key := ['d'] }
    0
    { question := "capital?", options := ["Paris", "London", "Paris", "Berlin"] }
    { question := "capital?", options := ["London", "Paris", "Berlin", "Paris"] }
    rfl (by decide) (by decide)

/-- C2 (counterexample): Scenario C of the spec — answer key "ab" with a single
question — does not fail at all: `shuffleQuiz` has no length check, succeeds,
and silently ignores the extra key entry. -/
theorem shuffle_no_length_mismatch_error :
    shuffleQuiz zeroStream quizC =
      .ok { title := "C"
            topics := [{ name := "T"
                         questions := [{ question := "q"
                                         options := ["B", "C", "D", "A"] }] }]
            answer_key := ['d'] } := rfl

/-- C2 (amended): an answer key at least as long as the question count, with
valid entries at every question position and 4 options per question, makes
`shuffleQuiz` succeed; the output key has one entry per question, so any extra
input entries are dropped, and no length-mismatch failure exists. -/
theorem shuffle_ok_of_valid (σ : Nat → Nat) (quiz : QuizData)
    (h4 : ∀ qq ∈ flatQuestions quiz, qq.options.length = 4)
    (hkey : ∀ g, g < (flatQuestions quiz).length →
      ((quiz.answer_key.get? g).bind letterToIndex).isSome) :
    ∃ out, shuffleQuiz σ quiz = .ok out
      ∧ out.answer_key.length = (flatQuestions quiz).length := by
  obtain ⟨qs', ls, f', p', hflat⟩ := processQuestions_all_valid quiz.answer_key σ
    ((quiz.topics.map QuizTopic.questions).flatten) 0 0
    (fun qq hqq => h4 qq hqq)
    (fun g hg => by rw [Nat.zero_add]; exact hkey g hg)
  obtain ⟨hlen1, hlen2, hidx⟩ :=
    processQuestions_ok_facts quiz.answer_key σ _ 0 0 _ _ _ _ hflat
  cases htop : processTopics quiz.answer_key σ quiz.topics 0 0 with
  | error e =>
      have hcontra := processTopics_error_to_flat quiz.answer_key σ quiz.topics 0 0 e htop
      rw [hflat] at hcontra
      exact Except.noConfusion hcontra
  | ok r =>
      obtain ⟨ts', ls2, f2, p2⟩ := r
      have hflat2 := processTopics_ok_flat quiz.answer_key σ quiz.topics 0 0 ts' ls2 f2 p2 htop
      rw [hflat] at hflat2
      injection hflat2 with h1
      rw [Prod.mk.injEq, Prod.mk.injEq, Prod.mk.injEq] at h1
      obtain ⟨-, h1b, -, -⟩ := h1
      refine ⟨{ quiz with topics := ts', answer_key := ls2 }, ?_, ?_⟩
      · simp only [shuffleQuiz, htop]
      · show ls2.length = (flatQuestions quiz).length
        rw [← h1b]
        exact hlen2

/-- Witness for the amended C2 at Scenario C: the two-letter key with one
question succeeds and the output key has exactly one entry. -/
theorem shuffle_ok_of_valid_witness :
    ∃ out, shuffleQuiz zeroStream quizC = .ok out
      ∧ out.answer_key.length = (flatQuestions quizC).length :=
  shuffle_ok_of_valid zeroStream quizC (by decide) (by decide)

/-- C9 (counterexample): in a quiz whose second question has only 3 options but
whose first answer-key entry is the invalid letter e, `shuffleQuiz` reports the
invalid key entry, not a `MalformedQuestion` for the malformed question. -/
theorem shuffle_malformed_after_bad_entry :
    shuffleQuiz zeroStream quizE = .error (.invalidAnswerKeyEntry (some 'e') 1) := rfl

/-- C9 (amended): if the question at flattened position `f` lacks exactly 4
options and every earlier question has 4 options and a valid answer-key entry,
`shuffleQuiz` fails with `MalformedQuestion` at position `f` and returns no
output at all. -/
theorem shuffle_first_malformed (σ : Nat → Nat) (quiz : QuizData) (f : Nat)
    (q : QuizQuestion)
    (hq : (flatQuestions quiz).get? f = some q)
    (hbad : q.options.length ≠ 4)
    (hpre : ∀ g q', g < f → (flatQuestions quiz).get? g = some q' →
      q'.options.length = 4 ∧ ((quiz.answer_key.get? g).bind letterToIndex).isSome) :
    shuffleQuiz σ quiz = .error (.malformedQuestion f) := by
  have hflat := processQuestions_first_malformed quiz.answer_key σ
    ((quiz.topics.map QuizTopic.questions).flatten) 0 0 f q hq hbad
    (fun g' q' hlt hg' => by
      rw [Nat.zero_add]
      exact hpre g' q' hlt hg')
  rw [Nat.zero_add] at hflat
  cases htop : processTopics quiz.answer_key σ quiz.topics 0 0 with
  | error e =>
      have h2 := processTopics_error_to_flat quiz.answer_key σ quiz.topics 0 0 e htop
      rw [hflat] at h2
      obtain rfl := Except.error.inj h2
      simp only [shuffleQuiz, htop]
  | ok r =>
      obtain ⟨ts', ls2, f2, p2⟩ := r
      have h2 := processTopics_ok_flat quiz.answer_key σ quiz.topics 0 0 ts' ls2 f2 p2 htop
      rw [hflat] at h2
      exact Except.noConfusion h2

/-- Witness for the amended C9: a quiz whose only question has 3 options fails
with `MalformedQuestion` at flattened position 0. -/
theorem shuffle_first_malformed_witness :
    shuffleQuiz zeroStream quizM = .error (.malformedQuestion 0) :=
  shuffle_first_malformed zeroStream quizM 0
    { question := "q", options := ["A", "B", "C"] }
    (by decide) (by decide)
    (fun g q' hlt _ => absurd hlt (Nat.not_lt_zero g))

/-- C10: the defensive `InternalConsistencyError` branch of the shuffler is
unreachable — for every input (even invalid ones) the result is never that
error, because the 4-options check and the letter-to-index mapping guarantee
the tagged pair exists in the shuffled list. -/
theorem shuffle_never_internal (σ : Nat → Nat) (quiz : QuizData) :
    isInternalResult (shuffleQuiz σ quiz) = false := by
  cases htop : processTopics quiz.answer_key σ quiz.topics 0 0 with
  | ok r =>
      obtain ⟨ts', ls, f2, p2⟩ := r
      simp only [shuffleQuiz, htop]
      rfl
  | error e =>
      have hflat := processTopics_error_to_flat quiz.answer_key σ quiz.topics 0 0 e htop
      obtain ⟨f', hshape⟩ := processQuestions_error_shape quiz.answer_key σ _ 0 0 e hflat
      simp only [shuffleQuiz, htop]
      rcases hshape with rfl | rfl <;> rfl

/-- C4: at the reachable repair state `stateC4` (a permutation of the letter
pool with the scan at i = 0 facing the duplicate a,a), the partner search of
lines 35–41 picks j = 3, yet the swap of line 43 creates a brand-new adjacent
duplicate b,b at positions (1,2) — a boundary pair the three checks never
examine. -/
theorem repair_swap_creates_new_duplicate :
    findSwapJ stateC4 0 stateC4.length 2 = some 3
    ∧ stateC4.getD 1 'a' ≠ stateC4.getD 2 'a'
    ∧ (swapL stateC4 1 3 'a').getD 1 'a' = (swapL stateC4 1 3 'a').getD 2 'a' := by
  decide

end ImageToMCQ
